import Mathlib

/-!
Shallow embedding of the synchronization-primitive emulation layer of
qemu-rcu (src/qemu-thread-win32.c, plus the trylock wrapper of
src/qemu-thread-posix.c): error-checking mutex built on an atomic counter
and a wake semaphore, the two-phase condition-variable emulation, the
writer-preferring reader-writer lock, and the thread join/exit lifecycle.

Thread ids (`GetCurrentThreadId` / `pthread_self`) are modelled as positive
naturals, `0` standing for "no owner".  Semaphore handles are modelled by
their count of available units; the auto-reset `continue_event` and the
manual-reset `noReaders` event by a `Bool`.  `LONG` counters are modelled
by `Int`; their values stay within a machine word for any realistic number
of threads, so no wrap-around is applied.
-/

namespace QemuRcu

/-- Combined state of one `QemuMutex` together with the one `QemuCond`
bound to it (`cond->mutex == mutex`, fixed by `qemu_cond_init`):
`count`/`owner`/`msema` are `mutex->count`, `mutex->owner` and the units of
the mutex wake semaphore (`qemu_mutex_semaphore`); `waiters`/`target`/
`csema`/`continueEvent` are `cond->waiters`, `cond->target`, the units of
`cond->sema` and the state of `cond->continue_event`. -/
structure Sh where
  count : Int
  owner : Nat
  msema : Nat
  waiters : Int
  target : Int
  csema : Nat
  continueEvent : Bool
deriving Repr, DecidableEq

/-- Outcome of `qemu_mutex_lock` run by one thread: `err` is the failing
`assert(mutex->owner != GetCurrentThreadId())`; `fast` is the 0→1 increment
path that never touches the wake channel; `blocked` is the state after the
increment when the thread is suspended in `WaitForSingleObject` on an empty
wake semaphore; `woken` is the completed slow path that consumed one wake
unit. -/
inductive LockRes
  | err
  | fast (s : Sh)
  | blocked (s : Sh)
  | woken (s : Sh)
deriving Repr, DecidableEq

/-- `qemu_mutex_lock` (qemu-thread-win32.c:59-66): assert the caller does
not already own the mutex, `InterlockedIncrement(&mutex->count)`, wait on
the wake semaphore unless the increment returned 1, then record ownership. -/
def qemu_mutex_lock (t : Nat) (s : Sh) : LockRes :=
  if s.owner = t then .err
  else
    let s1 : Sh := { s with count := s.count + 1 }
    if s1.count = 1 then .fast { s1 with owner := t }
    else if s1.msema = 0 then .blocked s1
    else .woken { s1 with msema := s1.msema - 1, owner := t }

/-- `qemu_mutex_unlock` (qemu-thread-win32.c:93-100): assert ownership,
clear `mutex->owner`, `InterlockedDecrement(&mutex->count)` and release one
wake unit exactly when the decremented count is non-zero.  `none` is the
failing assertion (abort). -/
def qemu_mutex_unlock (t : Nat) (s : Sh) : Option Sh :=
  if s.owner ≠ t then none
  else
    let s1 : Sh := { s with owner := 0 }
    let s2 : Sh := { s1 with count := s1.count - 1 }
    if s2.count ≠ 0 then some { s2 with msema := s2.msema + 1 } else some s2

/-- `qemu_mutex_trylock` (qemu-thread-win32.c:82-91): assert the caller is
not the owner, then `InterlockedCompareExchange(&mutex->count, 1, 0)`; on
success record ownership and return `false`, otherwise return `true` with
the state untouched.  `none` is the failing assertion. -/
def qemu_mutex_trylock (t : Nat) (s : Sh) : Option (Bool × Sh) :=
  if s.owner = t then none
  else if s.count = 0 then some (false, { s with count := 1, owner := t })
  else some (true, s)

/-- `qemu_mutex_destroy` (qemu-thread-win32.c:36-43): returns whether both
assertions `assert(mutex->count == 0)` and `assert(mutex->owner == 0)`
pass.  The function receives no caller identity: the checks are on the
mutex state only. -/
def qemu_mutex_destroy (s : Sh) : Bool :=
  decide (s.count = 0) && decide (s.owner = 0)

/-- Outcome of `qemu_cond_signal`/`qemu_cond_broadcast`: `err` is the
failing `assert(cond->mutex->owner == GetCurrentThreadId())`; `noop` is the
early return on `cond->waiters == 0`; `rendezvous` is the state after
releasing wake units when the caller is suspended waiting for
`cond->continue_event`; `done` is the completed call that consumed an
already-set continue event. -/
inductive SigRes
  | err
  | noop (s : Sh)
  | rendezvous (s : Sh)
  | done (s : Sh)
deriving Repr, DecidableEq

/-- `qemu_cond_signal` (qemu-thread-win32.c:213-239): under the bound
mutex, return if there are no waiters; otherwise set
`cond->target = cond->waiters - 1`, release one unit of `cond->sema` and
wait for `cond->continue_event` (`SignalObjectAndWait`, auto-reset). -/
def qemu_cond_signal (t : Nat) (s : Sh) : SigRes :=
  if s.owner ≠ t then .err
  else if s.waiters = 0 then .noop s
  else
    let s1 : Sh := { s with target := s.waiters - 1 }
    let s2 : Sh := { s1 with csema := s1.csema + 1 }
    if s2.continueEvent then .done { s2 with continueEvent := false }
    else .rendezvous s2

/-- `qemu_cond_broadcast` (qemu-thread-win32.c:241-268): under the bound
mutex, return if there are no waiters; otherwise set `cond->target = 0`,
release `cond->waiters` units of `cond->sema` at once and wait for
`cond->continue_event`. -/
def qemu_cond_broadcast (t : Nat) (s : Sh) : SigRes :=
  if s.owner ≠ t then .err
  else if s.waiters = 0 then .noop s
  else
    let s1 : Sh := { s with target := 0 }
    let s2 : Sh := { s1 with csema := s1.csema + s1.waiters.toNat }
    if s2.continueEvent then .done { s2 with continueEvent := false }
    else .rendezvous s2

/-- The waiter-side bookkeeping of `qemu_cond_wait`
(qemu-thread-win32.c:300-302): `InterlockedDecrement(&cond->waiters)` and,
when the decremented value equals `cond->target`,
`SetEvent(cond->continue_event)`.  (In the interleaved broadcast model
below the decrement and the `SetEvent` call are two separate steps.) -/
def cond_wait_dec (s : Sh) : Sh :=
  let s1 : Sh := { s with waiters := s.waiters - 1 }
  if s1.waiters = s.target then { s1 with continueEvent := true } else s1

/-- Outcome of `qemu_cond_wait` with the trace of states after each atomic
step of the call: `err` is a failing assertion inside the nested
`qemu_mutex_unlock`; `blockedSema` is a thread suspended on `cond->sema`;
`blockedMutex` is a thread that finished its bookkeeping and is suspended
re-acquiring the bound mutex; `done` is a completed call. -/
inductive CWRes
  | err
  | blockedSema (tr : List Sh)
  | blockedMutex (tr : List Sh)
  | done (tr : List Sh)
deriving Repr, DecidableEq

/-- `qemu_cond_wait` (qemu-thread-win32.c:270-306): increment
`cond->waiters` (protected by the bound mutex), `qemu_mutex_unlock` the
bound mutex, wait on `cond->sema`, decrement `cond->waiters` setting the
continue event on target match, and `qemu_mutex_lock` the bound mutex
again. -/
def qemu_cond_wait (t : Nat) (s : Sh) : CWRes :=
  let s1 : Sh := { s with waiters := s.waiters + 1 }
  match qemu_mutex_unlock t s1 with
  | none => .err
  | some s2 =>
    if s2.csema = 0 then .blockedSema [s1, s2]
    else
      let s3 : Sh := { s2 with csema := s2.csema - 1 }
      let s4 : Sh := cond_wait_dec s3
      match qemu_mutex_lock t s4 with
      | .err => .err
      | .fast s5 => .done [s1, s2, s3, s4, s5]
      | .woken s5 => .done [s1, s2, s3, s4, s5]
      | .blocked s5 => .blockedMutex [s1, s2, s3, s4, s5]

/-! ### The posix wrapper's trylock (src/qemu-thread-posix.c:64-73) -/

/-- State of the posix-backend `QemuMutex`: the native `pthread_mutex_t`
modelled by whether it is locked, plus the wrapper's `owner` field
(`pthread_t`, `0` standing for `pthread_null`). -/
structure PQemuMutex where
  lock : Bool
  owner : Nat
deriving Repr, DecidableEq

/-- Modelled from the spec: the native mutual-exclusion primitive consumed
by the posix backend (spec section 6).  `pthread_mutex_trylock` acquires
and returns `0` exactly when the mutex is unlocked, and returns the
`EBUSY` error code (16) leaving it untouched otherwise; it never blocks. -/
def pthread_mutex_trylock (locked : Bool) : Nat × Bool :=
  if locked then (16, locked) else (0, true)

/-- `qemu_mutex_trylock` of the posix backend (qemu-thread-posix.c:64-73):
call `pthread_mutex_trylock`, record the caller as owner on success, and
return `!!err` — `0` when acquired, `1` otherwise. -/
def posix_qemu_mutex_trylock (t : Nat) (m : PQemuMutex) : Nat × PQemuMutex :=
  let r := pthread_mutex_trylock m.lock
  if r.1 = 0 then (0, { lock := r.2, owner := t })
  else (1, { m with lock := r.2 })

/-! ### Thread lifecycle (qemu-thread-win32.c:343-484) -/

/-- `mode` argument of `qemu_thread_create`. -/
inductive ThreadMode
  | joinable
  | detached
deriving Repr, DecidableEq

/-- `struct QemuThreadData` (qemu-thread-win32.c:343-353): creation mode,
`exited` flag and return value slot (`void *ret`, unset until
`qemu_thread_exit` stores it). -/
structure QemuThreadData (α : Type) where
  mode : ThreadMode
  exited : Bool
  ret : Option α
deriving Repr, DecidableEq

/-- `struct QemuThread`: the thread id and the descriptor reference, which
`qemu_thread_create` nulls out for detached threads. -/
structure QemuThread (α : Type) where
  tid : Nat
  data : Option (QemuThreadData α)
deriving Repr, DecidableEq

/-- `qemu_thread_create` (qemu-thread-win32.c:425-450): allocate a fresh
descriptor (`exited = false`), spawn the thread on `win32_start_routine`,
and keep a reference to the descriptor only in joinable mode.  Returns the
caller's `QemuThread` and the descriptor handed to the new thread. -/
def qemu_thread_create (α : Type) (mode : ThreadMode) (t : Nat) :
    QemuThread α × QemuThreadData α :=
  let d : QemuThreadData α := ⟨mode, false, none⟩
  (⟨t, if mode = .detached then none else some d⟩, d)

/-- `qemu_thread_exit` (qemu-thread-win32.c:372-383): given the
thread-local descriptor reference, record the return value and mark the
thread exited (under the descriptor's critical section).  The outer `none`
is the failing `assert(data->mode != QEMU_THREAD_DETACHED)`; the thread
then terminates. -/
def qemu_thread_exit (α : Type) (ret : α) (tls : Option (QemuThreadData α)) :
    Option (Option (QemuThreadData α)) :=
  match tls with
  | none => some none
  | some d =>
    if d.mode = .detached then none
    else some (some { d with ret := some ret, exited := true })

/-- `win32_start_routine` (qemu-thread-win32.c:357-370): free the
descriptor and null the thread-local reference for detached threads,
publish it for joinable ones, run the entry routine, and pass its return
value to `qemu_thread_exit`.  Returns the final descriptor state (`none`
once freed); the outer `none` is an assertion failure inside
`qemu_thread_exit`. -/
def win32_start_routine (α β : Type) (entry : α → β) (arg : α)
    (data : QemuThreadData β) : Option (Option (QemuThreadData β)) :=
  let tls : Option (QemuThreadData β) :=
    if data.mode = .detached then none else some data
  qemu_thread_exit β (entry arg) tls

/-- Outcome of `qemu_thread_join`: `noopNull` is the immediate `NULL`
return on an absent descriptor reference; `blocked` is the caller
suspended in `WaitForSingleObject` on a thread that has not exited;
`value` is the completed join carrying `data->ret`. -/
inductive JoinRes (α : Type)
  | noopNull
  | blocked
  | value (v : Option α)
deriving Repr, DecidableEq

/-- `qemu_thread_join` (qemu-thread-win32.c:385-412): return `NULL` at
once if `thread->data` is absent; otherwise resolve a fresh handle
(`qemu_thread_get_handle` yields one exactly when the thread has not
exited), wait for termination, and return `data->ret`. -/
def qemu_thread_join (α : Type) (data : Option (QemuThreadData α)) : JoinRes α :=
  match data with
  | none => .noopNull
  | some d => if d.exited then .value d.ret else .blocked

/-! ### Reader-writer lock (qemu-thread-win32.c:102-177)

The four operations are serialized by `writerLock` and `readerCountLock`;
each is modelled as one transition on the shared fields, guarded by the
conditions under which the operation can run to completion.  A writer
holds `writerLock` from `qemu_rwmutex_wrlock` until its unlock, so both
`rdlock` and `wrlock` are enabled only while no writer holds the lock;
the ghost field `wheld` records exactly that window.  (A writer waiting
inside `wrlock` for readers to drain also holds `writerLock`; omitting it
only enlarges the set of interleavings, so the invariants proved below
hold a fortiori for the real ones.) -/

/-- State of a `QemuRWMutex`: `readerCount`, `writer`
(`0` = `NULL`), the manual-reset `noReaders` event, and the ghost flag
`wheld` marking that some thread is between a completed
`qemu_rwmutex_wrlock` and its `qemu_rwmutex_unlock`. -/
structure RWSt where
  readerCount : Int
  writer : Nat
  noReaders : Bool
  wheld : Bool
deriving Repr, DecidableEq

/-- `qemu_rwmutex_init` (qemu-thread-win32.c:102-109): no readers, no
writer, `noReaders` created set. -/
def rw_init : RWSt := ⟨0, 0, true, false⟩

/-- One completed reader-writer-lock operation
(qemu-thread-win32.c:111-177).  `rdlock` asserts the caller does not hold
the write side, increments `readerCount` under both guards and resets
`noReaders` when the count became 1.  `wrlock` takes `writerLock`, waits
out `noReaders` if `readerCount > 0`, and records the caller as writer.
`unlock` dispatches on `writer == GetCurrentThreadId()`: a reader asserts
`readerCount > 0`, decrements it and sets `noReaders` when it reached 0; the
writer clears `writer` and releases `writerLock`. -/
inductive RWStep : RWSt → RWSt → Prop
  | rdlock (t : Nat) (s : RWSt) (ht : t ≠ 0) (hfree : s.wheld = false)
      (ha : s.writer ≠ t) :
      RWStep s { s with
        readerCount := s.readerCount + 1,
        noReaders := if s.readerCount + 1 = 1 then false else s.noReaders }
  | wrlock (t : Nat) (s : RWSt) (ht : t ≠ 0) (hfree : s.wheld = false)
      (hdrained : s.readerCount ≤ 0 ∨ s.noReaders = true) :
      RWStep s { s with writer := t, wheld := true }
  | unlockReader (t : Nat) (s : RWSt) (hnw : s.writer ≠ t)
      (hr : 0 < s.readerCount) :
      RWStep s { s with
        readerCount := s.readerCount - 1,
        noReaders := if s.readerCount - 1 = 0 then true else s.noReaders }
  | unlockWriter (t : Nat) (s : RWSt) (ht : t ≠ 0) (hw : s.writer = t) :
      RWStep s { s with writer := 0, wheld := false }

/-- Reader-writer-lock states reachable from `rw_init` by completed
operations. -/
def RWReach (s : RWSt) : Prop := Relation.ReflTransGen RWStep rw_init s

/-- The data-model invariant of the reader-writer lock (spec section 3):
the writer identity is non-none exactly while a writer holds the lock, a
positive reader count keeps `noReaders` unset (and conversely the event is
only set while no reader is registered), and the reader count never goes
negative. -/
def RWInv (s : RWSt) : Prop :=
  (s.writer ≠ 0 ↔ s.wheld = true) ∧
  (0 < s.readerCount → s.noReaders = false) ∧
  (s.noReaders = true → s.readerCount = 0) ∧
  0 ≤ s.readerCount

/-! ### Interleaved mutex machine (qemu-thread-win32.c:59-100)

Any number `n` of threads concurrently run `qemu_mutex_lock`,
`qemu_mutex_trylock` and `qemu_mutex_unlock` on one mutex.  Each C
statement of those functions is one atomic step; a thread's progress
through the current call is its phase.  Threads at an operation boundary
(`idle`, or `holding` between a completed lock and the next unlock) may
start any of the three operations, so every interleaving of every
per-thread operation sequence is covered.  Steps are included only when
the operation's entry assertion passes; the theorems show the assertions
fail (abort) in exactly the contract-violation situations. -/

/-- Phase of one thread: `idle` (not inside a call, not holding), `lInc`
(entered `qemu_mutex_lock`, about to `InterlockedIncrement`), `lWait`
(suspended on the wake semaphore), `lSet` (acquired, about to store
`mutex->owner`), `holding` (lock call returned), `uClear` (entered
`qemu_mutex_unlock`, assertion passed, about to clear `mutex->owner`),
`uDec` (about to `InterlockedDecrement`), `uRel` (about to
`ReleaseSemaphore`), `tCas` (entered `qemu_mutex_trylock`, about to
`InterlockedCompareExchange`). -/
inductive MPhase
  | idle
  | lInc
  | lWait
  | lSet
  | holding
  | uClear
  | uDec
  | uRel
  | tCas
deriving Repr, DecidableEq

/-- Thread id of machine thread `t`: `GetCurrentThreadId` values are
positive, so `0` never names a thread. -/
def tidOf {n : Nat} (t : Fin n) : Nat := t.val + 1

/-- Configuration of the mutex machine: the shared `mutex->count`,
`mutex->owner` and wake-semaphore units, plus each thread's phase. -/
structure BCfg (n : Nat) where
  count : Int
  owner : Nat
  msema : Nat
  phase : Fin n → MPhase

/-- Initial configuration: the mutex as left by `qemu_mutex_init`
(qemu-thread-win32.c:30-34), all threads outside any call. -/
def initB (n : Nat) : BCfg n := ⟨0, 0, 0, fun _ => .idle⟩

/-- One atomic step of the mutex machine.  `startLock`/`startTry` execute
the entry assertion of `qemu_mutex_lock`/`qemu_mutex_trylock` (they exist
only when `mutex->owner != GetCurrentThreadId()`, i.e. the assertion
passes); `startUnlock` executes `qemu_mutex_unlock`'s
`assert(mutex->owner == GetCurrentThreadId())`.  The remaining steps are
the individual statements of qemu-thread-win32.c:59-100. -/
inductive BStep {n : Nat} : BCfg n → BCfg n → Prop
  | startLock (c : BCfg n) (t : Fin n) (hp : c.phase t = .idle)
      (ha : c.owner ≠ tidOf t) :
      BStep c { c with phase := Function.update c.phase t .lInc }
  | stepInc (c : BCfg n) (t : Fin n) (hp : c.phase t = .lInc) :
      BStep c { c with
        count := c.count + 1,
        phase := Function.update c.phase t
          (if c.count + 1 = 1 then .lSet else .lWait) }
  | stepAcq (c : BCfg n) (t : Fin n) (hp : c.phase t = .lWait)
      (hs : 0 < c.msema) :
      BStep c { c with
        msema := c.msema - 1,
        phase := Function.update c.phase t .lSet }
  | stepSetOwner (c : BCfg n) (t : Fin n) (hp : c.phase t = .lSet) :
      BStep c { c with
        owner := tidOf t,
        phase := Function.update c.phase t .holding }
  | startUnlock (c : BCfg n) (t : Fin n) (hp : c.phase t = .holding)
      (ha : c.owner = tidOf t) :
      BStep c { c with phase := Function.update c.phase t .uClear }
  | stepClear (c : BCfg n) (t : Fin n) (hp : c.phase t = .uClear) :
      BStep c { c with
        owner := 0,
        phase := Function.update c.phase t .uDec }
  | stepDec (c : BCfg n) (t : Fin n) (hp : c.phase t = .uDec) :
      BStep c { c with
        count := c.count - 1,
        phase := Function.update c.phase t
          (if c.count - 1 = 0 then .idle else .uRel) }
  | stepRel (c : BCfg n) (t : Fin n) (hp : c.phase t = .uRel) :
      BStep c { c with
        msema := c.msema + 1,
        phase := Function.update c.phase t .idle }
  | startTry (c : BCfg n) (t : Fin n) (hp : c.phase t = .idle)
      (ha : c.owner ≠ tidOf t) :
      BStep c { c with phase := Function.update c.phase t .tCas }
  | stepCasSucc (c : BCfg n) (t : Fin n) (hp : c.phase t = .tCas)
      (hz : c.count = 0) :
      BStep c { c with
        count := 1,
        phase := Function.update c.phase t .lSet }
  | stepCasFail (c : BCfg n) (t : Fin n) (hp : c.phase t = .tCas)
      (hnz : c.count ≠ 0) :
      BStep c { c with phase := Function.update c.phase t .idle }

/-- Configurations of the mutex machine reachable from the initial one. -/
def BReach (n : Nat) (c : BCfg n) : Prop :=
  Relation.ReflTransGen BStep (initB n) c

/-- Number of threads whose phase satisfies `p`. -/
def pcount {n : Nat} {β : Type} (f : Fin n → β) (p : β → Bool) : Nat :=
  (Finset.univ.filter fun t => p (f t) = true).card

/-- Phases in which a thread is suspended on the mutex wake semaphore. -/
def isW : MPhase → Bool
  | .lWait => true
  | _ => false

/-- Phases in which a thread logically holds the mutex: from winning the
count gate (or the CAS) until its `InterlockedDecrement` in unlock. -/
def isA : MPhase → Bool
  | .lSet => true
  | .holding => true
  | .uClear => true
  | .uDec => true
  | _ => false

/-- Phase in which a departing holder still owes a `ReleaseSemaphore`. -/
def isR : MPhase → Bool
  | .uRel => true
  | _ => false

/-- Inductive invariant of the mutex machine: `mutex->count` counts the
threads past their increment and before their decrement; at most one
wake-up is in flight (held lock, pending release, or available unit — and
only when the count is positive); `mutex->owner` names exactly the threads
between their `owner :=` store and their `owner := 0` clear; and the owner
field is `0` or a thread id. -/
def BInv {n : Nat} (c : BCfg n) : Prop :=
  c.count = ((pcount c.phase isW + pcount c.phase isA : Nat) : Int) ∧
  pcount c.phase isA + pcount c.phase isR + c.msema =
    (if pcount c.phase isW + pcount c.phase isA = 0 then 0 else 1) ∧
  (∀ t : Fin n, c.owner = tidOf t ↔
    (c.phase t = .holding ∨ c.phase t = .uClear)) ∧
  (c.owner = 0 ∨ ∃ t : Fin n, c.owner = tidOf t)

/-! ### Interleaved broadcast machine (qemu-thread-win32.c:241-306)

The window of one `qemu_cond_broadcast` call: the broadcaster holds the
bound mutex throughout, `w` waiters are registered (`cond->waiters == w`)
and suspended on `cond->sema`, no wake unit is pending (`cond->sema == 0`:
every earlier signal/broadcast consumed its units before returning, as the
invariant below re-establishes) and `cond->continue_event` is unset.  The
broadcaster steps through qemu-thread-win32.c:241-268; each waiter steps
through the wake-side half of `qemu_cond_wait`
(qemu-thread-win32.c:285-305), its final phase `lock` standing for the
re-acquisition of the bound mutex, which cannot complete inside the
window.  The initial `cond->target` is arbitrary (`t0`). -/

/-- Phase of the broadcaster: about to check `cond->waiters`, about to
store `cond->target = 0`, about to `ReleaseSemaphore(cond->sema,
cond->waiters)`, suspended on `cond->continue_event`, or returned. -/
inductive BrPhase
  | chk
  | tgt
  | rel
  | waitEv
  | done
deriving Repr, DecidableEq

/-- Phase of a waiter inside `qemu_cond_wait`: suspended on `cond->sema`,
about to `InterlockedDecrement(&cond->waiters)`, about to
`SetEvent(cond->continue_event)` after a target match, or finished with the
bookkeeping and contending for the bound mutex. -/
inductive WPhase
  | sem
  | dec
  | setEv
  | lock
deriving Repr, DecidableEq

/-- Configuration of the broadcast machine: the condition variable's
shared fields plus the broadcaster's and each waiter's phase. -/
structure CCfg (w : Nat) where
  waiters : Int
  target : Int
  csema : Nat
  event : Bool
  b : BrPhase
  wph : Fin w → WPhase

/-- Initial configuration of the broadcast window with `w` registered
waiters and arbitrary previous target `t0`. -/
def initC (w : Nat) (t0 : Int) : CCfg w :=
  ⟨(w : Int), t0, 0, false, .chk, fun _ => .sem⟩

/-- One atomic step of the broadcast machine (statements of
qemu-thread-win32.c:241-268 for the broadcaster and 285-302 for a
waiter). -/
inductive CStep {w : Nat} : CCfg w → CCfg w → Prop
  | chkZero (c : CCfg w) (hb : c.b = .chk) (hz : c.waiters = 0) :
      CStep c { c with b := .done }
  | chkPos (c : CCfg w) (hb : c.b = .chk) (hnz : c.waiters ≠ 0) :
      CStep c { c with b := .tgt }
  | setTgt (c : CCfg w) (hb : c.b = .tgt) :
      CStep c { c with target := 0, b := .rel }
  | relAll (c : CCfg w) (hb : c.b = .rel) :
      CStep c { c with csema := c.csema + c.waiters.toNat, b := .waitEv }
  | consumeEv (c : CCfg w) (hb : c.b = .waitEv) (he : c.event = true) :
      CStep c { c with event := false, b := .done }
  | wSem (c : CCfg w) (i : Fin w) (hp : c.wph i = .sem) (hs : 0 < c.csema) :
      CStep c { c with
        csema := c.csema - 1,
        wph := Function.update c.wph i .dec }
  | wDec (c : CCfg w) (i : Fin w) (hp : c.wph i = .dec) :
      CStep c { c with
        waiters := c.waiters - 1,
        wph := Function.update c.wph i
          (if c.waiters - 1 = c.target then .setEv else .lock) }
  | wSet (c : CCfg w) (i : Fin w) (hp : c.wph i = .setEv) :
      CStep c { c with
        event := true,
        wph := Function.update c.wph i .lock }

/-- Configurations of the broadcast machine reachable from its initial
configuration. -/
def CReach (w : Nat) (t0 : Int) (c : CCfg w) : Prop :=
  Relation.ReflTransGen CStep (initC w t0) c

/-- Waiter phase test: suspended on `cond->sema`. -/
def isSem : WPhase → Bool
  | .sem => true
  | _ => false

/-- Waiter phase test: consumed a wake unit, decrement still pending. -/
def isDec : WPhase → Bool
  | .dec => true
  | _ => false

/-- Waiter phase test: `SetEvent` call pending after a target match. -/
def isSetEv : WPhase → Bool
  | .setEv => true
  | _ => false

/-- Waiter phase test: bookkeeping done, contending for the bound mutex. -/
def isLock : WPhase → Bool
  | .lock => true
  | _ => false

/-- Inductive invariant of the broadcast machine, by broadcaster phase.
Before the release every waiter is still suspended and no wake unit
exists; after it the available units are exactly the suspended waiters,
the waiter count records the waiters that have not yet decremented, and
the continue event is set only once every waiter has decremented (the
last decrement is the one that matches `target = 0`).  When the
broadcaster has returned, every wake unit has been consumed and every
registered waiter has completed its decrement. -/
def CInv {w : Nat} (c : CCfg w) : Prop :=
  (c.b = .chk → c.csema = 0 ∧ c.event = false ∧ pcount c.wph isSem = w ∧
    c.waiters = (w : Int)) ∧
  (c.b = .tgt → c.csema = 0 ∧ c.event = false ∧ pcount c.wph isSem = w ∧
    c.waiters = (w : Int) ∧ c.waiters ≠ 0) ∧
  (c.b = .rel → c.csema = 0 ∧ c.event = false ∧ pcount c.wph isSem = w ∧
    c.waiters = (w : Int) ∧ c.target = 0) ∧
  (c.b = .waitEv → c.target = 0 ∧ c.csema = pcount c.wph isSem ∧
    c.waiters = ((pcount c.wph isSem + pcount c.wph isDec : Nat) : Int) ∧
    (c.event = true → pcount c.wph isSem = 0 ∧ pcount c.wph isDec = 0 ∧
      pcount c.wph isSetEv = 0) ∧
    (1 ≤ pcount c.wph isSetEv → pcount c.wph isSetEv = 1 ∧
      pcount c.wph isSem = 0 ∧ pcount c.wph isDec = 0 ∧ c.event = false)) ∧
  (c.b = .done → c.csema = 0 ∧ c.waiters = 0 ∧ c.event = false ∧
    pcount c.wph isSem = 0 ∧ pcount c.wph isDec = 0 ∧
    pcount c.wph isSetEv = 0)

/-! ## Counting helpers -/

/-- Updating one thread's phase changes each phase count by the difference
of the indicator at the old and the new phase. -/
theorem pcount_update {n : Nat} {β : Type} (f : Fin n → β) (t : Fin n)
    (b : β) (p : β → Bool) :
    pcount (Function.update f t b) p + (if p (f t) = true then 1 else 0) =
      pcount f p + (if p b = true then 1 else 0) := by
  classical
  unfold pcount
  rw [Finset.card_filter, Finset.card_filter]
  have h1 : (fun u => if p (Function.update f t b u) = true then 1 else 0) =
      Function.update (fun u => if p (f u) = true then 1 else 0) t
        (if p b = true then 1 else 0) := by
    funext u
    by_cases hu : u = t
    · subst hu; simp
    · simp [Function.update_noteq hu]
  rw [h1, Finset.sum_update_of_mem (Finset.mem_univ t),
    Finset.sum_eq_sum_diff_singleton_add (Finset.mem_univ t)
      (fun u => if p (f u) = true then 1 else 0)]
  omega

/-- Two distinct threads in phases satisfying `p` force the count to be at
least 2. -/
theorem pcount_pair_le {n : Nat} {β : Type} (f : Fin n → β) (p : β → Bool)
    (t u : Fin n) (ht : p (f t) = true) (hu : p (f u) = true) (hne : t ≠ u) :
    2 ≤ pcount f p := by
  unfold pcount
  have hsub : ({t, u} : Finset (Fin n)) ⊆
      Finset.univ.filter fun v => p (f v) = true := by
    intro v hv
    rcases Finset.mem_insert.mp hv with rfl | hv
    · exact Finset.mem_filter.mpr ⟨Finset.mem_univ _, ht⟩
    · rcases Finset.mem_singleton.mp hv with rfl
      exact Finset.mem_filter.mpr ⟨Finset.mem_univ _, hu⟩
  calc 2 = ({t, u} : Finset (Fin n)).card := (Finset.card_pair hne).symm
    _ ≤ _ := Finset.card_le_card hsub

/-- A zero count means no thread is in a phase satisfying `p`. -/
theorem pcount_eq_zero {n : Nat} {β : Type} {f : Fin n → β} {p : β → Bool}
    (h : pcount f p = 0) (t : Fin n) : p (f t) = false := by
  by_contra hc
  have ht : p (f t) = true := by
    cases hpt : p (f t)
    · exact absurd hpt hc
    · rfl
  have : 1 ≤ pcount f p :=
    Finset.card_pos.mpr ⟨t, Finset.mem_filter.mpr ⟨Finset.mem_univ _, ht⟩⟩
  omega

/-- Every waiter of the broadcast machine is in exactly one of the four
phases, so the four counts partition the `w` waiters. -/
theorem wphase_partition {w : Nat} (f : Fin w → WPhase) :
    pcount f isSem + pcount f isDec + pcount f isSetEv + pcount f isLock
      = w := by
  unfold pcount
  rw [Finset.card_filter, Finset.card_filter, Finset.card_filter,
    Finset.card_filter, ← Finset.sum_add_distrib, ← Finset.sum_add_distrib,
    ← Finset.sum_add_distrib]
  have h1 : ∀ t : Fin w,
      (((if isSem (f t) = true then 1 else 0) +
        (if isDec (f t) = true then 1 else 0)) +
        (if isSetEv (f t) = true then 1 else 0)) +
        (if isLock (f t) = true then 1 else 0) = 1 := by
    intro t
    cases f t <;> simp [isSem, isDec, isSetEv, isLock]
  rw [Finset.sum_congr rfl fun t _ => h1 t]
  simp

/-! ## C4: emulation-backend lock/unlock -/

/-- C4: on the emulation backend `qemu_mutex_lock` performs an atomic
increment of the shared counter and acquires immediately without blocking
exactly when that increment is a 0→1 transition, suspending on the wake
channel for any other result (consuming one unit when one is available);
`qemu_mutex_unlock` clears the owner, then atomically decrements the
counter, and releases exactly one wake-channel unit if and only if the
post-decrement value is non-zero. -/
theorem C4_lock_unlock_emulation (t : Nat) (s : Sh) :
    (s.owner ≠ t → s.count = 0 →
      qemu_mutex_lock t s = .fast { s with count := 1, owner := t }) ∧
    (s.owner ≠ t → s.count ≠ 0 → s.msema = 0 →
      qemu_mutex_lock t s = .blocked { s with count := s.count + 1 }) ∧
    (s.owner ≠ t → s.count ≠ 0 → s.msema ≠ 0 →
      qemu_mutex_lock t s = .woken
        { s with count := s.count + 1, msema := s.msema - 1, owner := t }) ∧
    (s.owner = t →
      qemu_mutex_unlock t s = some
        (if s.count - 1 ≠ 0 then
          { s with owner := 0, count := s.count - 1, msema := s.msema + 1 }
        else { s with owner := 0, count := s.count - 1 })) := by
  refine ⟨?_, ?_, ?_, ?_⟩
  · intro h1 h2
    simp [qemu_mutex_lock, h1, h2]
  · intro h1 h2 h3
    have h4 : ¬ s.count + 1 = 1 := by omega
    simp [qemu_mutex_lock, h1, h3, h4]
  · intro h1 h2 h3
    have h4 : ¬ s.count + 1 = 1 := by omega
    simp [qemu_mutex_lock, h1, h3, h4]
  · intro h1
    by_cases hc : s.count - 1 = 0 <;> simp [qemu_mutex_unlock, h1, hc]

/-- Witness for C4: thread 1 takes the uncontended fast path on a fresh
mutex. -/
theorem C4_lock_unlock_emulation_witness :
    qemu_mutex_lock 1 ⟨0, 0, 0, 0, 0, 0, false⟩ =
      .fast ⟨1, 1, 0, 0, 0, 0, false⟩ :=
  (C4_lock_unlock_emulation 1 ⟨0, 0, 0, 0, 0, 0, false⟩).1 (by decide) rfl

/-! ## C6: trylock -/

/-- C6: `qemu_mutex_trylock` never blocks (it returns at once for every
state in which its entry assertion passes) and succeeds exactly when the
lock state shows the mutex unheld (`count = 0`): success is a single
compare-and-swap of the counter from 0 to 1 recording the caller as owner
and returning `false`, and failure due to contention leaves the state
untouched and is reported as the ordinary return value `true`, never as a
fatal error. -/
theorem C6_trylock_nonblocking (t : Nat) (s : Sh) (h : s.owner ≠ t) :
    (∃ p, qemu_mutex_trylock t s = some p) ∧
    ((∃ s', qemu_mutex_trylock t s = some (false, s')) ↔ s.count = 0) ∧
    (s.count = 0 →
      qemu_mutex_trylock t s = some (false, { s with count := 1, owner := t })) ∧
    (s.count ≠ 0 → qemu_mutex_trylock t s = some (true, s)) := by
  by_cases hc : s.count = 0
  · refine ⟨⟨(false, { s with count := 1, owner := t }),
      by simp [qemu_mutex_trylock, h, hc]⟩, ?_, ?_, ?_⟩
    · simp [qemu_mutex_trylock, h, hc]
    · intro _; simp [qemu_mutex_trylock, h, hc]
    · intro hcon; exact absurd hc hcon
  · refine ⟨⟨(true, s), by simp [qemu_mutex_trylock, h, hc]⟩, ?_, ?_, ?_⟩
    · simp [qemu_mutex_trylock, h, hc]
    · intro hcon; exact absurd hcon hc
    · intro _; simp [qemu_mutex_trylock, h, hc]

/-- Witness for C6: thread 1 acquires a fresh mutex by compare-and-swap. -/
theorem C6_trylock_nonblocking_witness :
    qemu_mutex_trylock 1 ⟨0, 0, 0, 0, 0, 0, false⟩ =
      some (false, ⟨1, 1, 0, 0, 0, 0, false⟩) :=
  (C6_trylock_nonblocking 1 ⟨0, 0, 0, 0, 0, 0, false⟩ (by decide)).2.2.1 rfl

/-! ## C8: destroy preconditions

qemu-thread-win32.c:36-43 asserts `mutex->count == 0` and
`mutex->owner == 0`: the checks depend only on the mutex being unheld, not
on which thread calls destroy.  The claim that destroy "must only be
called by the current owner, with an assertion firing otherwise" fails:
an unheld mutex has owner 0, which is no thread, so a caller that is not
the owner (any caller) destroys it without any assertion firing. -/

/-- Counterexample to C8 as stated: on an unheld, freshly initialized
mutex, a caller with thread id 5 is not the recorded owner, yet both
assertions of `qemu_mutex_destroy` pass — no assertion fires for a
caller other than the current owner. -/
theorem C8_counterexample :
    (5 : Nat) ≠ (Sh.mk 0 0 0 0 0 0 false).owner ∧
    qemu_mutex_destroy ⟨0, 0, 0, 0, 0, 0, false⟩ = true := by decide

/-- C8 (amended): `qemu_mutex_destroy` requires exactly that the lock is
unheld — counter zero and no recorded owner — and its assertions fire
otherwise; the identity of the calling thread plays no role (the function
never consults it). -/
theorem C8_destroy_requires_unheld (s : Sh) :
    qemu_mutex_destroy s = true ↔ (s.count = 0 ∧ s.owner = 0) := by
  simp [qemu_mutex_destroy]

/-! ## C9: thread join -/

/-- C9: `qemu_thread_join` on a thread created detached, or whose
descriptor reference is absent, is an immediate `NULL`-returning no-op;
otherwise it blocks until the thread has terminated and returns exactly
the value the trampoline passed to `qemu_thread_exit`, i.e. the value
returned by the thread's entry routine. -/
theorem C9_join_returns_entry_value (α β : Type) (entry : α → β) (arg : α)
    (t : Nat) :
    ((qemu_thread_create β .detached t).1.data = none) ∧
    (qemu_thread_join β (qemu_thread_create β .detached t).1.data =
      .noopNull) ∧
    (qemu_thread_join β none = .noopNull) ∧
    (win32_start_routine α β entry arg (qemu_thread_create β .joinable t).2 =
      some (some ⟨.joinable, true, some (entry arg)⟩)) ∧
    (qemu_thread_join β (some ⟨.joinable, true, some (entry arg)⟩) =
      .value (some (entry arg))) ∧
    (∀ d : QemuThreadData β, d.exited = false →
      qemu_thread_join β (some d) = .blocked) := by
  refine ⟨?_, ?_, ?_, ?_, ?_, ?_⟩
  · simp [qemu_thread_create]
  · simp [qemu_thread_create, qemu_thread_join]
  · simp [qemu_thread_join]
  · simp [qemu_thread_create, win32_start_routine, qemu_thread_exit]
  · simp [qemu_thread_join]
  · intro d hd; simp [qemu_thread_join, hd]

/-- Witness for C9: joining a joinable thread that has not yet exited
blocks. -/
theorem C9_join_returns_entry_value_witness :
    qemu_thread_join Nat (some ⟨.joinable, false, none⟩) = .blocked :=
  (C9_join_returns_entry_value Nat Nat id 0 7).2.2.2.2.2 ⟨.joinable, false, none⟩
    rfl

/-! ## C10: trylock return-value convention -/

/-- C10: on both backends `qemu_mutex_trylock` reports success as the
boolean-false value: the win32 emulation returns `false` (C `0`) exactly
when it acquires and `true` (non-zero) when the lock is already held; the
posix wrapper returns `!!err`, i.e. `0` when `pthread_mutex_trylock`
acquired and `1` when the native mutex was already locked. -/
theorem C10_trylock_reports_success_as_false (t : Nat) (s : Sh)
    (m : PQemuMutex) (h : s.owner ≠ t) :
    (s.count = 0 →
      ∃ s', qemu_mutex_trylock t s = some (false, s') ∧ s'.owner = t) ∧
    (s.count ≠ 0 → qemu_mutex_trylock t s = some (true, s)) ∧
    (m.lock = false → posix_qemu_mutex_trylock t m = (0, ⟨true, t⟩)) ∧
    (m.lock = true → posix_qemu_mutex_trylock t m = (1, m)) := by
  refine ⟨?_, ?_, ?_, ?_⟩
  · intro hc
    exact ⟨{ s with count := 1, owner := t },
      by simp [qemu_mutex_trylock, h, hc], rfl⟩
  · intro hc; simp [qemu_mutex_trylock, h, hc]
  · intro hm; simp [posix_qemu_mutex_trylock, pthread_mutex_trylock, hm]
  · intro hm
    obtain ⟨ml, mo⟩ := m
    simp only at hm
    subst hm
    simp [posix_qemu_mutex_trylock, pthread_mutex_trylock]

/-- Witness for C10: the posix wrapper returns 1 on an already-locked
native mutex. -/
theorem C10_trylock_reports_success_as_false_witness :
    posix_qemu_mutex_trylock 3 ⟨true, 2⟩ = (1, ⟨true, 2⟩) :=
  (C10_trylock_reports_success_as_false 3 ⟨0, 0, 0, 0, 0, 0, false⟩
    ⟨true, 2⟩ (by decide)).2.2.2 rfl

/-! ## C1: cond_wait -/

/-- C1: a call to `qemu_cond_wait` whose precondition holds (the bound
mutex is held by the caller) first increments the waiter count, then
releases the bound mutex; with no wake unit available it is suspended on
the wake channel in that state; once a wake unit is available it consumes
exactly one, decrements the waiter count, sets the rendezvous channel
exactly when the decremented value equals the recorded target, and
re-acquires the bound mutex before returning.  Whenever the call returns,
the bound mutex is held by the caller again and the decrement has been
performed (the waiter count shows no trace of this waiter). -/
theorem C1_cond_wait_protocol (t : Nat) (s : Sh) (ht : t ≠ 0)
    (hmx : s.owner = t) :
    (∃ s2, qemu_mutex_unlock t { s with waiters := s.waiters + 1 } = some s2 ∧
      s2.owner = 0 ∧ s2.waiters = s.waiters + 1 ∧ s2.csema = s.csema ∧
      (s.csema = 0 → qemu_cond_wait t s =
        .blockedSema [{ s with waiters := s.waiters + 1 }, s2]) ∧
      (s.csema ≠ 0 → ∃ s5,
        qemu_cond_wait t s = .done [{ s with waiters := s.waiters + 1 }, s2,
          { s2 with csema := s2.csema - 1 },
          cond_wait_dec { s2 with csema := s2.csema - 1 }, s5] ∧
        s5.owner = t ∧ s5.waiters = s.waiters)) ∧
    (∀ x : Sh, (cond_wait_dec x).waiters = x.waiters - 1 ∧
      (cond_wait_dec x).target = x.target ∧
      (x.waiters - 1 = x.target → (cond_wait_dec x).continueEvent = true) ∧
      (x.waiters - 1 ≠ x.target →
        (cond_wait_dec x).continueEvent = x.continueEvent)) ∧
    (∀ tr, qemu_cond_wait t s = .done tr →
      ∃ s5, tr.getLast? = some s5 ∧ s5.owner = t ∧ s5.waiters = s.waiters) := by
  have hD : ∀ x : Sh, (cond_wait_dec x).waiters = x.waiters - 1 ∧
      (cond_wait_dec x).target = x.target ∧
      (x.waiters - 1 = x.target → (cond_wait_dec x).continueEvent = true) ∧
      (x.waiters - 1 ≠ x.target →
        (cond_wait_dec x).continueEvent = x.continueEvent) := by
    intro x
    by_cases hx : x.waiters - 1 = x.target <;> simp [cond_wait_dec, hx]
  obtain ⟨c0, o0, m0, w0, g0, cs0, ev0⟩ := s
  obtain rfl : o0 = t := hmx
  have h0t : ¬ (0 : Nat) = o0 := fun h => ht h.symm
  by_cases hc : c0 - 1 = 0
  · have hc1 : c0 = 1 := by omega
    by_cases hcs : cs0 = 0
    · refine ⟨⟨⟨c0 - 1, 0, m0, w0 + 1, g0, cs0, ev0⟩,
        by simp [qemu_mutex_unlock, hc], rfl, rfl, rfl, ?_, ?_⟩, hD, ?_⟩
      · intro _
        simp [qemu_cond_wait, qemu_mutex_unlock, hc, hcs]
      · intro hcon; exact absurd hcs hcon
      · intro tr htr
        simp [qemu_cond_wait, qemu_mutex_unlock, hc, hcs] at htr
    · by_cases hdec : w0 + 1 - 1 = g0
      · have hdec1 : w0 = g0 := by omega
        refine ⟨⟨⟨c0 - 1, 0, m0, w0 + 1, g0, cs0, ev0⟩,
          by simp [qemu_mutex_unlock, hc], rfl, rfl, rfl, ?_, ?_⟩, hD, ?_⟩
        · intro hcon; exact absurd hcon hcs
        · intro _
          refine ⟨⟨1, o0, m0, g0, g0, cs0 - 1, true⟩, ?_, rfl, ?_⟩
          · simp [qemu_cond_wait, qemu_mutex_unlock, qemu_mutex_lock,
              cond_wait_dec, hc, hc1, hcs, hdec1, h0t]
          · simp [hdec1]
        · intro tr htr
          simp [qemu_cond_wait, qemu_mutex_unlock, qemu_mutex_lock,
            cond_wait_dec, hc, hc1, hcs, hdec1, h0t] at htr
          rcases htr with rfl
          exact ⟨⟨1, o0, m0, g0, g0, cs0 - 1, true⟩, by simp, rfl,
            by simp [hdec1]⟩
      · have hdec1 : ¬ w0 = g0 := by omega
        refine ⟨⟨⟨c0 - 1, 0, m0, w0 + 1, g0, cs0, ev0⟩,
          by simp [qemu_mutex_unlock, hc], rfl, rfl, rfl, ?_, ?_⟩, hD, ?_⟩
        · intro hcon; exact absurd hcon hcs
        · intro _
          refine ⟨⟨1, o0, m0, w0, g0, cs0 - 1, ev0⟩, ?_, rfl, rfl⟩
          simp [qemu_cond_wait, qemu_mutex_unlock, qemu_mutex_lock,
            cond_wait_dec, hc, hc1, hcs, hdec1, h0t]
        · intro tr htr
          simp [qemu_cond_wait, qemu_mutex_unlock, qemu_mutex_lock,
            cond_wait_dec, hc, hc1, hcs, hdec1, h0t] at htr
          rcases htr with rfl
          exact ⟨⟨1, o0, m0, w0, g0, cs0 - 1, ev0⟩, by simp, rfl, rfl⟩
  · have hc1 : ¬ c0 = 1 := by omega
    by_cases hcs : cs0 = 0
    · refine ⟨⟨⟨c0 - 1, 0, m0 + 1, w0 + 1, g0, cs0, ev0⟩,
        by simp [qemu_mutex_unlock, hc], rfl, rfl, rfl, ?_, ?_⟩, hD, ?_⟩
      · intro _
        simp [qemu_cond_wait, qemu_mutex_unlock, hc, hcs]
      · intro hcon; exact absurd hcs hcon
      · intro tr htr
        simp [qemu_cond_wait, qemu_mutex_unlock, hc, hcs] at htr
    · by_cases hdec : w0 + 1 - 1 = g0
      · have hdec1 : w0 = g0 := by omega
        refine ⟨⟨⟨c0 - 1, 0, m0 + 1, w0 + 1, g0, cs0, ev0⟩,
          by simp [qemu_mutex_unlock, hc], rfl, rfl, rfl, ?_, ?_⟩, hD, ?_⟩
        · intro hcon; exact absurd hcon hcs
        · intro _
          refine ⟨⟨c0, o0, m0, g0, g0, cs0 - 1, true⟩, ?_, rfl, ?_⟩
          · simp [qemu_cond_wait, qemu_mutex_unlock, qemu_mutex_lock,
              cond_wait_dec, hc, hc1, hcs, hdec1, h0t]
          · simp [hdec1]
        · intro tr htr
          simp [qemu_cond_wait, qemu_mutex_unlock, qemu_mutex_lock,
            cond_wait_dec, hc, hc1, hcs, hdec1, h0t] at htr
          rcases htr with rfl
          exact ⟨⟨c0, o0, m0, g0, g0, cs0 - 1, true⟩, by simp, rfl,
            by simp [hdec1]⟩
      · have hdec1 : ¬ w0 = g0 := by omega
        refine ⟨⟨⟨c0 - 1, 0, m0 + 1, w0 + 1, g0, cs0, ev0⟩,
          by simp [qemu_mutex_unlock, hc], rfl, rfl, rfl, ?_, ?_⟩, hD, ?_⟩
        · intro hcon; exact absurd hcon hcs
        · intro _
          refine ⟨⟨c0, o0, m0, w0, g0, cs0 - 1, ev0⟩, ?_, rfl, rfl⟩
          simp [qemu_cond_wait, qemu_mutex_unlock, qemu_mutex_lock,
            cond_wait_dec, hc, hc1, hcs, hdec1, h0t]
        · intro tr htr
          simp [qemu_cond_wait, qemu_mutex_unlock, qemu_mutex_lock,
            cond_wait_dec, hc, hc1, hcs, hdec1, h0t] at htr
          rcases htr with rfl
          exact ⟨⟨c0, o0, m0, w0, g0, cs0 - 1, ev0⟩, by simp, rfl, rfl⟩

/-- Witness for C1: the decrement step of a concrete wait leaves the
waiter count reduced by one. -/
theorem C1_cond_wait_protocol_witness :
    (cond_wait_dec ⟨0, 0, 0, 5, 4, 0, false⟩).waiters = 5 - 1 :=
  ((C1_cond_wait_protocol 1 ⟨1, 1, 0, 0, 0, 1, false⟩ (by decide) rfl).2.1
    ⟨0, 0, 0, 5, 4, 0, false⟩).1

/-! ## C2: cond_signal -/

/-- C2: a call to `qemu_cond_signal` with the bound mutex held: with zero
waiters it returns at once leaving the state exactly unchanged (no
wake-channel unit released, waiter count and target untouched), and a
thread calling `qemu_cond_wait` afterwards is suspended on the empty wake
channel rather than woken; with waiters present it sets the target to
waiter-count − 1, releases exactly one wake-channel unit, and is suspended
on the rendezvous channel until the continue event is set — which the
waiter-side decrement does exactly when the decremented value matches the
recorded target. -/
theorem C2_cond_signal_protocol (t : Nat) (s : Sh) (hmx : s.owner = t) :
    (s.waiters = 0 → qemu_cond_signal t s = .noop s) ∧
    (s.waiters = 0 → s.csema = 0 →
      ∃ tr, qemu_cond_wait t s = .blockedSema tr) ∧
    (s.waiters ≠ 0 → s.continueEvent = false →
      qemu_cond_signal t s =
        .rendezvous { s with target := s.waiters - 1, csema := s.csema + 1 }) ∧
    (s.waiters ≠ 0 → s.continueEvent = true →
      qemu_cond_signal t s =
        .done { s with
          target := s.waiters - 1, csema := s.csema + 1,
          continueEvent := false }) ∧
    (∀ x : Sh, (cond_wait_dec x).continueEvent = true ↔
      (x.waiters - 1 = x.target ∨ x.continueEvent = true)) := by
  obtain ⟨c0, o0, m0, w0, g0, cs0, ev0⟩ := s
  obtain rfl : o0 = t := hmx
  refine ⟨?_, ?_, ?_, ?_, ?_⟩
  · intro hw
    simp only at hw
    simp [qemu_cond_signal, hw]
  · intro hw hcs
    simp only at hw hcs
    by_cases hc : c0 - 1 = 0
    · exact ⟨[⟨c0, o0, m0, w0 + 1, g0, cs0, ev0⟩,
        ⟨c0 - 1, 0, m0, w0 + 1, g0, cs0, ev0⟩],
        by simp [qemu_cond_wait, qemu_mutex_unlock, hc, hcs]⟩
    · exact ⟨[⟨c0, o0, m0, w0 + 1, g0, cs0, ev0⟩,
        ⟨c0 - 1, 0, m0 + 1, w0 + 1, g0, cs0, ev0⟩],
        by simp [qemu_cond_wait, qemu_mutex_unlock, hc, hcs]⟩
  · intro hw hev
    simp only at hw hev
    simp [qemu_cond_signal, hw, hev]
  · intro hw hev
    simp only at hw hev
    simp [qemu_cond_signal, hw, hev]
  · intro x
    by_cases hx : x.waiters - 1 = x.target <;> simp [cond_wait_dec, hx]

/-- Witness for C2: signalling with no waiters registered is a no-op. -/
theorem C2_cond_signal_protocol_witness :
    qemu_cond_signal 1 ⟨1, 1, 0, 0, 0, 0, false⟩ =
      .noop ⟨1, 1, 0, 0, 0, 0, false⟩ :=
  (C2_cond_signal_protocol 1 ⟨1, 1, 0, 0, 0, 0, false⟩ rfl).1 rfl

/-! ## C7: reader-writer-lock invariant -/

/-- C7: every state of the reader-writer lock reachable from `rw_init` by
completed operations satisfies the data-model invariant: the writer
identity is non-none exactly while a writer holds the lock, and a positive
reader count keeps the no-readers signal unset; moreover a reader's unlock
decrements the reader count and sets the no-readers signal exactly when
the decrement brings the count to 0. -/
theorem C7_rwlock_invariant (s : RWSt) (h : RWReach s) :
    RWInv s ∧
    (s.wheld = false → s.writer = 0) ∧
    (0 < s.readerCount → ∀ t : Nat, s.writer ≠ t →
      ∃ s', RWStep s s' ∧ s'.readerCount = s.readerCount - 1 ∧
        (s'.noReaders = true ↔ s.readerCount - 1 = 0)) := by
  have hinv : RWInv s := by
    induction h with
    | refl =>
      exact ⟨by simp [rw_init], by simp [rw_init], by simp [rw_init],
        by simp [rw_init]⟩
    | @tail b c hsteps hstep ih =>
      obtain ⟨h1, h2, h3, h4⟩ := ih
      cases hstep with
      | rdlock t s2 ht hfree ha =>
        obtain ⟨rc, wr, nr, wh⟩ := b
        dsimp only at h1 h2 h3 h4 hfree ha
        refine ⟨by dsimp only; exact h1, ?_, ?_, by dsimp only; omega⟩
        · dsimp only
          intro _
          by_cases hrc : rc + 1 = 1
          · rw [if_pos hrc]
          · rw [if_neg hrc]
            exact h2 (by omega)
        · dsimp only
          by_cases hrc : rc + 1 = 1
          · rw [if_pos hrc]
            simp
          · rw [if_neg hrc]
            intro hnr
            have := h3 hnr
            omega
      | wrlock t s2 ht hfree hdrained =>
        obtain ⟨rc, wr, nr, wh⟩ := b
        dsimp only at h1 h2 h3 h4 hfree hdrained
        exact ⟨by dsimp only; simp [ht], by dsimp only; exact h2,
          by dsimp only; exact h3, by dsimp only; exact h4⟩
      | unlockReader t s2 hnw hr =>
        obtain ⟨rc, wr, nr, wh⟩ := b
        dsimp only at h1 h2 h3 h4 hnw hr
        refine ⟨by dsimp only; exact h1, ?_, ?_, by dsimp only; omega⟩
        · dsimp only
          intro hpos
          rw [if_neg (by omega)]
          exact h2 hr
        · dsimp only
          by_cases hrc : rc - 1 = 0
          · rw [if_pos hrc]
            simp [hrc]
          · rw [if_neg hrc]
            intro hnr
            have := h3 hnr
            omega
      | unlockWriter t s2 ht hw =>
        obtain ⟨rc, wr, nr, wh⟩ := b
        dsimp only at h1 h2 h3 h4 hw
        exact ⟨by dsimp only; simp, by dsimp only; exact h2,
          by dsimp only; exact h3, by dsimp only; exact h4⟩
  obtain ⟨h1, h2, h3, h4⟩ := hinv
  refine ⟨⟨h1, h2, h3, h4⟩, ?_, ?_⟩
  · intro hw
    by_contra hne
    exact absurd (h1.mp hne) (by simp [hw])
  · intro hr t hnw
    refine ⟨_, RWStep.unlockReader t s hnw hr, rfl, ?_⟩
    by_cases hz : s.readerCount - 1 = 0
    · simp [hz]
    · have hnr : s.noReaders = false := h2 hr
      simp [hz, hnr]

/-- Witness for C7: at the initial state no writer is recorded. -/
theorem C7_rwlock_invariant_witness : rw_init.writer = 0 :=
  (C7_rwlock_invariant rw_init Relation.ReflTransGen.refl).2.1 rfl

/-! ## C5: mutual exclusion of the emulated mutex -/

/-- Thread ids of distinct machine threads are distinct. -/
theorem tidOf_inj {n : Nat} {t u : Fin n} (h : tidOf t = tidOf u) : t = u := by
  unfold tidOf at h
  exact Fin.ext (by omega)

/-- The initial configuration of the mutex machine satisfies the
invariant. -/
theorem BInv_init (n : Nat) : BInv (initB n) := by
  refine ⟨?_, ?_, ?_, ?_⟩
  · simp [initB, pcount, isW, isA]
  · simp [initB, pcount, isW, isA, isR]
  · intro t
    simp [initB, tidOf]
  · exact Or.inl rfl

/-- One step of the mutex machine preserves the inductive invariant. -/
theorem BInv_step {n : Nat} {c c' : BCfg n} (h : BStep c c') (hinv : BInv c) :
    BInv c' := by
  obtain ⟨hcount, hsum, howner, h0⟩ := hinv
  have hAle : pcount c.phase isA ≤ 1 := by
    split_ifs at hsum <;> omega
  cases h with
  | startLock t hp ha =>
    have hW := pcount_update c.phase t MPhase.lInc isW
    have hA := pcount_update c.phase t MPhase.lInc isA
    have hR := pcount_update c.phase t MPhase.lInc isR
    rw [hp] at hW hA hR
    simp [isW, isA, isR] at hW hA hR
    refine ⟨?_, ?_, ?_, ?_⟩
    · dsimp only; omega
    · dsimp only; split_ifs at hsum ⊢ <;> omega
    · dsimp only
      intro u
      rw [Function.update_apply]
      by_cases hu : u = t
      · subst hu
        rw [if_pos rfl, howner u, hp]
        simp
      · rw [if_neg hu]
        exact howner u
    · dsimp only; exact h0
  | stepInc t hp =>
    by_cases hcnd : c.count + 1 = 1
    · simp only [if_pos hcnd]
      have hW := pcount_update c.phase t MPhase.lSet isW
      have hA := pcount_update c.phase t MPhase.lSet isA
      have hR := pcount_update c.phase t MPhase.lSet isR
      rw [hp] at hW hA hR
      simp [isW, isA, isR] at hW hA hR
      refine ⟨?_, ?_, ?_, ?_⟩
      · dsimp only; omega
      · dsimp only; split_ifs at hsum ⊢ <;> omega
      · dsimp only
        intro u
        rw [Function.update_apply]
        by_cases hu : u = t
        · subst hu
          rw [if_pos rfl, howner u, hp]
          simp
        · rw [if_neg hu]
          exact howner u
      · dsimp only; exact h0
    · simp only [if_neg hcnd]
      have hW := pcount_update c.phase t MPhase.lWait isW
      have hA := pcount_update c.phase t MPhase.lWait isA
      have hR := pcount_update c.phase t MPhase.lWait isR
      rw [hp] at hW hA hR
      simp [isW, isA, isR] at hW hA hR
      refine ⟨?_, ?_, ?_, ?_⟩
      · dsimp only; omega
      · dsimp only; split_ifs at hsum ⊢ <;> omega
      · dsimp only
        intro u
        rw [Function.update_apply]
        by_cases hu : u = t
        · subst hu
          rw [if_pos rfl, howner u, hp]
          simp
        · rw [if_neg hu]
          exact howner u
      · dsimp only; exact h0
  | stepAcq t hp hs =>
    have hW := pcount_update c.phase t MPhase.lSet isW
    have hA := pcount_update c.phase t MPhase.lSet isA
    have hR := pcount_update c.phase t MPhase.lSet isR
    rw [hp] at hW hA hR
    simp [isW, isA, isR] at hW hA hR
    refine ⟨?_, ?_, ?_, ?_⟩
    · dsimp only; omega
    · dsimp only; split_ifs at hsum ⊢ <;> omega
    · dsimp only
      intro u
      rw [Function.update_apply]
      by_cases hu : u = t
      · subst hu
        rw [if_pos rfl, howner u, hp]
        simp
      · rw [if_neg hu]
        exact howner u
    · dsimp only; exact h0
  | stepSetOwner t hp =>
    have hW := pcount_update c.phase t MPhase.holding isW
    have hA := pcount_update c.phase t MPhase.holding isA
    have hR := pcount_update c.phase t MPhase.holding isR
    rw [hp] at hW hA hR
    simp [isW, isA, isR] at hW hA hR
    refine ⟨?_, ?_, ?_, ?_⟩
    · dsimp only; omega
    · dsimp only; split_ifs at hsum ⊢ <;> omega
    · dsimp only
      intro u
      rw [Function.update_apply]
      by_cases hu : u = t
      · subst hu
        rw [if_pos rfl]
        simp
      · rw [if_neg hu]
        constructor
        · intro hx
          exact absurd (tidOf_inj hx).symm hu
        · intro hx
          exfalso
          have hAu : isA (c.phase u) = true := by
            rcases hx with h' | h' <;> simp [h', isA]
          have hAt : isA (c.phase t) = true := by simp [hp, isA]
          have h2 := pcount_pair_le c.phase isA t u hAt hAu
            (fun he => hu he.symm)
          omega
    · dsimp only
      exact Or.inr ⟨t, rfl⟩
  | startUnlock t hp ha =>
    have hW := pcount_update c.phase t MPhase.uClear isW
    have hA := pcount_update c.phase t MPhase.uClear isA
    have hR := pcount_update c.phase t MPhase.uClear isR
    rw [hp] at hW hA hR
    simp [isW, isA, isR] at hW hA hR
    refine ⟨?_, ?_, ?_, ?_⟩
    · dsimp only; omega
    · dsimp only; split_ifs at hsum ⊢ <;> omega
    · dsimp only
      intro u
      rw [Function.update_apply]
      by_cases hu : u = t
      · subst hu
        rw [if_pos rfl]
        simp [ha]
      · rw [if_neg hu]
        exact howner u
    · dsimp only; exact h0
  | stepClear t hp =>
    have hW := pcount_update c.phase t MPhase.uDec isW
    have hA := pcount_update c.phase t MPhase.uDec isA
    have hR := pcount_update c.phase t MPhase.uDec isR
    rw [hp] at hW hA hR
    simp [isW, isA, isR] at hW hA hR
    refine ⟨?_, ?_, ?_, ?_⟩
    · dsimp only; omega
    · dsimp only; split_ifs at hsum ⊢ <;> omega
    · dsimp only
      intro u
      rw [Function.update_apply]
      by_cases hu : u = t
      · subst hu
        rw [if_pos rfl]
        simp [tidOf]
      · rw [if_neg hu]
        constructor
        · intro hx
          exfalso
          simp [tidOf] at hx
        · intro hx
          exfalso
          have h1 := (howner u).mpr hx
          have h2 := (howner t).mpr (Or.inr hp)
          exact hu (tidOf_inj (h1.symm.trans h2))
    · dsimp only
      exact Or.inl rfl
  | stepDec t hp =>
    by_cases hcnd : c.count - 1 = 0
    · simp only [if_pos hcnd]
      have hW := pcount_update c.phase t MPhase.idle isW
      have hA := pcount_update c.phase t MPhase.idle isA
      have hR := pcount_update c.phase t MPhase.idle isR
      rw [hp] at hW hA hR
      simp [isW, isA, isR] at hW hA hR
      refine ⟨?_, ?_, ?_, ?_⟩
      · dsimp only; omega
      · dsimp only; split_ifs at hsum ⊢ <;> omega
      · dsimp only
        intro u
        rw [Function.update_apply]
        by_cases hu : u = t
        · subst hu
          rw [if_pos rfl, howner u, hp]
          simp
        · rw [if_neg hu]
          exact howner u
      · dsimp only; exact h0
    · simp only [if_neg hcnd]
      have hW := pcount_update c.phase t MPhase.uRel isW
      have hA := pcount_update c.phase t MPhase.uRel isA
      have hR := pcount_update c.phase t MPhase.uRel isR
      rw [hp] at hW hA hR
      simp [isW, isA, isR] at hW hA hR
      refine ⟨?_, ?_, ?_, ?_⟩
      · dsimp only; omega
      · dsimp only; split_ifs at hsum ⊢ <;> omega
      · dsimp only
        intro u
        rw [Function.update_apply]
        by_cases hu : u = t
        · subst hu
          rw [if_pos rfl, howner u, hp]
          simp
        · rw [if_neg hu]
          exact howner u
      · dsimp only; exact h0
  | stepRel t hp =>
    have hW := pcount_update c.phase t MPhase.idle isW
    have hA := pcount_update c.phase t MPhase.idle isA
    have hR := pcount_update c.phase t MPhase.idle isR
    rw [hp] at hW hA hR
    simp [isW, isA, isR] at hW hA hR
    refine ⟨?_, ?_, ?_, ?_⟩
    · dsimp only; omega
    · dsimp only; split_ifs at hsum ⊢ <;> omega
    · dsimp only
      intro u
      rw [Function.update_apply]
      by_cases hu : u = t
      · subst hu
        rw [if_pos rfl, howner u, hp]
        simp
      · rw [if_neg hu]
        exact howner u
    · dsimp only; exact h0
  | startTry t hp ha =>
    have hW := pcount_update c.phase t MPhase.tCas isW
    have hA := pcount_update c.phase t MPhase.tCas isA
    have hR := pcount_update c.phase t MPhase.tCas isR
    rw [hp] at hW hA hR
    simp [isW, isA, isR] at hW hA hR
    refine ⟨?_, ?_, ?_, ?_⟩
    · dsimp only; omega
    · dsimp only; split_ifs at hsum ⊢ <;> omega
    · dsimp only
      intro u
      rw [Function.update_apply]
      by_cases hu : u = t
      · subst hu
        rw [if_pos rfl, howner u, hp]
        simp
      · rw [if_neg hu]
        exact howner u
    · dsimp only; exact h0
  | stepCasSucc t hp hz =>
    have hW := pcount_update c.phase t MPhase.lSet isW
    have hA := pcount_update c.phase t MPhase.lSet isA
    have hR := pcount_update c.phase t MPhase.lSet isR
    rw [hp] at hW hA hR
    simp [isW, isA, isR] at hW hA hR
    refine ⟨?_, ?_, ?_, ?_⟩
    · dsimp only; omega
    · dsimp only; split_ifs at hsum ⊢ <;> omega
    · dsimp only
      intro u
      rw [Function.update_apply]
      by_cases hu : u = t
      · subst hu
        rw [if_pos rfl, howner u, hp]
        simp
      · rw [if_neg hu]
        exact howner u
    · dsimp only; exact h0
  | stepCasFail t hp hnz =>
    have hW := pcount_update c.phase t MPhase.idle isW
    have hA := pcount_update c.phase t MPhase.idle isA
    have hR := pcount_update c.phase t MPhase.idle isR
    rw [hp] at hW hA hR
    simp [isW, isA, isR] at hW hA hR
    refine ⟨?_, ?_, ?_, ?_⟩
    · dsimp only; omega
    · dsimp only; split_ifs at hsum ⊢ <;> omega
    · dsimp only
      intro u
      rw [Function.update_apply]
      by_cases hu : u = t
      · subst hu
        rw [if_pos rfl, howner u, hp]
        simp
      · rw [if_neg hu]
        exact howner u
    · dsimp only; exact h0

/-- C5: in every configuration of the mutex machine reachable under any
interleaving of any number of threads performing lock, trylock and unlock,
at most one thread at a time holds the mutex (phases from winning the
count gate to the unlock decrement), and in particular at most one thread
observes itself as the recorded owner; a thread that has completed lock
and attempts to lock or trylock again finds itself recorded as owner, so
the entry assertion of lock/trylock fails fatally (self-relock); a thread
holding nothing finds itself not recorded as owner, so the assertion of
unlock fails fatally (unlock by non-owner) — neither is a recoverable
outcome, since no machine step exists for them. -/
theorem C5_mutual_exclusion (n : Nat) (c : BCfg n) (h : BReach n c) :
    (∀ t u : Fin n, isA (c.phase t) = true → isA (c.phase u) = true →
      t = u) ∧
    (∀ t u : Fin n, c.owner = tidOf t → c.owner = tidOf u → t = u) ∧
    (∀ t : Fin n, c.phase t = .holding → c.owner = tidOf t) ∧
    (∀ t : Fin n, c.phase t = .idle → c.owner ≠ tidOf t) := by
  have hinv : BInv c := by
    induction h with
    | refl => exact BInv_init n
    | tail hsteps hstep ih => exact BInv_step hstep ih
  obtain ⟨hcount, hsum, howner, h0⟩ := hinv
  refine ⟨?_, ?_, ?_, ?_⟩
  · intro t u ht hu
    by_contra hne
    have h2 := pcount_pair_le c.phase isA t u ht hu hne
    split_ifs at hsum <;> omega
  · intro t u h1 h2
    exact tidOf_inj (h1.symm.trans h2)
  · intro t hph
    exact (howner t).mpr (Or.inl hph)
  · intro t hph hcon
    rcases (howner t).mp hcon with h' | h' <;> simp [hph] at h'

/-- Witness for C5: at the initial configuration the single thread does
not observe itself as owner. -/
theorem C5_mutual_exclusion_witness : (initB 1).owner ≠ tidOf (0 : Fin 1) :=
  (C5_mutual_exclusion 1 (initB 1) Relation.ReflTransGen.refl).2.2.2 0 rfl

/-! ## C3: cond_broadcast -/

/-- A thread in a phase satisfying `p` makes the count positive. -/
theorem pcount_one_le {n : Nat} {β : Type} (f : Fin n → β) (p : β → Bool)
    (t : Fin n) (ht : p (f t) = true) : 1 ≤ pcount f p := by
  unfold pcount
  exact Finset.card_pos.mpr
    ⟨t, Finset.mem_filter.mpr ⟨Finset.mem_univ _, ht⟩⟩

/-- The initial configuration of the broadcast window satisfies the
invariant. -/
theorem CInv_init (w : Nat) (t0 : Int) : CInv (initC w t0) := by
  have hS : pcount (fun _ : Fin w => WPhase.sem) isSem = w := by
    simp [pcount, isSem]
  refine ⟨?_, ?_, ?_, ?_, ?_⟩
  · intro _; exact ⟨rfl, rfl, hS, rfl⟩
  · intro hb; simp [initC] at hb
  · intro hb; simp [initC] at hb
  · intro hb; simp [initC] at hb
  · intro hb; simp [initC] at hb

/-- One step of the broadcast machine preserves the inductive invariant. -/
theorem CInv_step {w : Nat} {c c' : CCfg w} (h : CStep c c') (hinv : CInv c) :
    CInv c' := by
  obtain ⟨i1, i2, i3, i4, i5⟩ := hinv
  have hpart := wphase_partition c.wph
  cases h with
  | chkZero hb hz =>
    obtain ⟨h1, h2, h3, h4⟩ := i1 hb
    refine ⟨?_, ?_, ?_, ?_, ?_⟩
    · intro hx; simp at hx
    · intro hx; simp at hx
    · intro hx; simp at hx
    · intro hx; simp at hx
    · intro _
      dsimp only
      refine ⟨h1, hz, h2, ?_, ?_, ?_⟩ <;> omega
  | chkPos hb hnz =>
    obtain ⟨h1, h2, h3, h4⟩ := i1 hb
    refine ⟨?_, ?_, ?_, ?_, ?_⟩
    · intro hx; simp at hx
    · intro _
      exact ⟨h1, h2, h3, h4, hnz⟩
    · intro hx; simp at hx
    · intro hx; simp at hx
    · intro hx; simp at hx
  | setTgt hb =>
    obtain ⟨h1, h2, h3, h4, h5⟩ := i2 hb
    refine ⟨?_, ?_, ?_, ?_, ?_⟩
    · intro hx; simp at hx
    · intro hx; simp at hx
    · intro _
      exact ⟨h1, h2, h3, h4, rfl⟩
    · intro hx; simp at hx
    · intro hx; simp at hx
  | relAll hb =>
    obtain ⟨h1, h2, h3, h4, h5⟩ := i3 hb
    have htn : c.waiters.toNat = w := by rw [h4]; simp
    refine ⟨?_, ?_, ?_, ?_, ?_⟩
    · intro hx; simp at hx
    · intro hx; simp at hx
    · intro hx; simp at hx
    · intro _
      dsimp only
      refine ⟨h5, ?_, ?_, ?_, ?_⟩
      · omega
      · omega
      · intro he; exact absurd he (by simp [h2])
      · intro hE; exfalso; omega
    · intro hx; simp at hx
  | consumeEv hb he =>
    obtain ⟨h1, h2, h3, h4, h5⟩ := i4 hb
    obtain ⟨hs0, hd0, he0⟩ := h4 he
    refine ⟨?_, ?_, ?_, ?_, ?_⟩
    · intro hx; simp at hx
    · intro hx; simp at hx
    · intro hx; simp at hx
    · intro hx; simp at hx
    · intro _
      dsimp only
      exact ⟨by omega, by omega, rfl, hs0, hd0, he0⟩
  | wSem i hp hs =>
    have hS := pcount_update c.wph i WPhase.dec isSem
    have hD := pcount_update c.wph i WPhase.dec isDec
    have hE := pcount_update c.wph i WPhase.dec isSetEv
    rw [hp] at hS hD hE
    simp [isSem, isDec, isSetEv] at hS hD hE
    refine ⟨?_, ?_, ?_, ?_, ?_⟩
    · intro hb; dsimp only at hb
      obtain ⟨h1, _⟩ := i1 hb
      exact absurd h1 (by omega)
    · intro hb; dsimp only at hb
      obtain ⟨h1, _⟩ := i2 hb
      exact absurd h1 (by omega)
    · intro hb; dsimp only at hb
      obtain ⟨h1, _⟩ := i3 hb
      exact absurd h1 (by omega)
    · intro hb; dsimp only at hb
      obtain ⟨h1, h2, h3, h4, h5⟩ := i4 hb
      dsimp only
      refine ⟨h1, ?_, ?_, ?_, ?_⟩
      · omega
      · omega
      · intro he; exfalso
        obtain ⟨hs0, _, _⟩ := h4 he
        omega
      · intro hE1; exfalso
        obtain ⟨_, hs0, _, _⟩ := h5 (by omega)
        omega
    · intro hb; dsimp only at hb
      obtain ⟨h1, _⟩ := i5 hb
      exact absurd h1 (by omega)
  | wDec i hp =>
    have hD1 : 1 ≤ pcount c.wph isDec :=
      pcount_one_le c.wph isDec i (by simp [hp, isDec])
    by_cases hbr : c.waiters - 1 = c.target
    · simp only [if_pos hbr]
      have hS := pcount_update c.wph i WPhase.setEv isSem
      have hD := pcount_update c.wph i WPhase.setEv isDec
      have hE := pcount_update c.wph i WPhase.setEv isSetEv
      rw [hp] at hS hD hE
      simp [isSem, isDec, isSetEv] at hS hD hE
      refine ⟨?_, ?_, ?_, ?_, ?_⟩
      · intro hb; dsimp only at hb
        obtain ⟨_, _, h3, _⟩ := i1 hb
        omega
      · intro hb; dsimp only at hb
        obtain ⟨_, _, h3, _, _⟩ := i2 hb
        omega
      · intro hb; dsimp only at hb
        obtain ⟨_, _, h3, _, _⟩ := i3 hb
        omega
      · intro hb; dsimp only at hb
        obtain ⟨h1, h2, h3, h4, h5⟩ := i4 hb
        have hE0 : pcount c.wph isSetEv = 0 := by
          by_cases hx : 1 ≤ pcount c.wph isSetEv
          · obtain ⟨_, _, hd0, _⟩ := h5 hx
            omega
          · omega
        have hevf : c.event = false := by
          cases hcev : c.event
          · rfl
          · obtain ⟨_, hd0, _⟩ := h4 hcev
            omega
        dsimp only
        refine ⟨h1, ?_, ?_, ?_, ?_⟩
        · omega
        · omega
        · intro he; exact absurd he (by simp [hevf])
        · intro _
          refine ⟨?_, ?_, ?_, hevf⟩ <;> omega
      · intro hb; dsimp only at hb
        obtain ⟨_, _, _, _, hd0, _⟩ := i5 hb
        omega
    · simp only [if_neg hbr]
      have hS := pcount_update c.wph i WPhase.lock isSem
      have hD := pcount_update c.wph i WPhase.lock isDec
      have hE := pcount_update c.wph i WPhase.lock isSetEv
      rw [hp] at hS hD hE
      simp [isSem, isDec, isSetEv] at hS hD hE
      refine ⟨?_, ?_, ?_, ?_, ?_⟩
      · intro hb; dsimp only at hb
        obtain ⟨_, _, h3, _⟩ := i1 hb
        omega
      · intro hb; dsimp only at hb
        obtain ⟨_, _, h3, _, _⟩ := i2 hb
        omega
      · intro hb; dsimp only at hb
        obtain ⟨_, _, h3, _, _⟩ := i3 hb
        omega
      · intro hb; dsimp only at hb
        obtain ⟨h1, h2, h3, h4, h5⟩ := i4 hb
        have hevf : c.event = false := by
          cases hcev : c.event
          · rfl
          · obtain ⟨_, hd0, _⟩ := h4 hcev
            omega
        dsimp only
        refine ⟨h1, ?_, ?_, ?_, ?_⟩
        · omega
        · omega
        · intro he; exact absurd he (by simp [hevf])
        · intro hE1; exfalso
          obtain ⟨_, _, hd0, _⟩ := h5 (by omega)
          omega
      · intro hb; dsimp only at hb
        obtain ⟨_, _, _, _, hd0, _⟩ := i5 hb
        omega
  | wSet i hp =>
    have hE1 : 1 ≤ pcount c.wph isSetEv :=
      pcount_one_le c.wph isSetEv i (by simp [hp, isSetEv])
    have hS := pcount_update c.wph i WPhase.lock isSem
    have hD := pcount_update c.wph i WPhase.lock isDec
    have hE := pcount_update c.wph i WPhase.lock isSetEv
    rw [hp] at hS hD hE
    simp [isSem, isDec, isSetEv] at hS hD hE
    refine ⟨?_, ?_, ?_, ?_, ?_⟩
    · intro hb; dsimp only at hb
      obtain ⟨_, _, h3, _⟩ := i1 hb
      omega
    · intro hb; dsimp only at hb
      obtain ⟨_, _, h3, _, _⟩ := i2 hb
      omega
    · intro hb; dsimp only at hb
      obtain ⟨_, _, h3, _, _⟩ := i3 hb
      omega
    · intro hb; dsimp only at hb
      obtain ⟨h1, h2, h3, h4, h5⟩ := i4 hb
      obtain ⟨hEe, hs0, hd0, hevf⟩ := h5 hE1
      dsimp only
      refine ⟨h1, ?_, ?_, ?_, ?_⟩
      · omega
      · omega
      · intro _
        refine ⟨?_, ?_, ?_⟩ <;> omega
      · intro hEx; exfalso; omega
    · intro hb; dsimp only at hb
      obtain ⟨_, _, _, _, _, he0⟩ := i5 hb
      omega

/-- C3: a call to `qemu_cond_broadcast` with the bound mutex held is a
no-op when there are no waiters, and otherwise sets the target to 0 and
releases exactly waiter-count wake units in one go before suspending on
the rendezvous channel.  In the interleaved broadcast window with `w`
registered waiters: at the release point exactly `w` waiters are recorded
(so exactly `w` units are added); the rendezvous event is set only once
every registered waiter has completed its decrement (the broadcaster stays
suspended until the last decrementing waiter); and when the broadcaster
has returned, every wake unit has been consumed and every registered
waiter is past its bookkeeping — a thread registering afterwards finds the
wake channel empty and is suspended rather than woken. -/
theorem C3_cond_broadcast_protocol (t : Nat) (s : Sh) (hmx : s.owner = t) :
    (s.waiters = 0 → qemu_cond_broadcast t s = .noop s) ∧
    (s.waiters ≠ 0 → s.continueEvent = false →
      qemu_cond_broadcast t s =
        .rendezvous { s with target := 0, csema := s.csema + s.waiters.toNat }) ∧
    (∀ s' : Sh, s'.owner = t → s'.csema = 0 →
      ∃ tr, qemu_cond_wait t s' = .blockedSema tr) ∧
    (∀ (w : Nat) (t0 : Int) (c : CCfg w), CReach w t0 c →
      (c.b = .rel → c.waiters = (w : Int) ∧ c.csema = 0) ∧
      (c.b = .waitEv → c.event = true → ∀ i : Fin w, c.wph i = .lock) ∧
      (c.b = .done → c.csema = 0 ∧ c.waiters = 0 ∧
        ∀ i : Fin w, c.wph i = .lock)) := by
  refine ⟨?_, ?_, ?_, ?_⟩
  · intro hw
    simp [qemu_cond_broadcast, hmx, hw]
  · intro hw hev
    simp [qemu_cond_broadcast, hmx, hw, hev]
  · intro s' hmx' hcs
    obtain ⟨c0, o0, m0, w0, g0, cs0, ev0⟩ := s'
    obtain rfl : o0 = t := hmx'
    simp only at hcs
    by_cases hc : c0 - 1 = 0
    · exact ⟨[⟨c0, o0, m0, w0 + 1, g0, cs0, ev0⟩,
        ⟨c0 - 1, 0, m0, w0 + 1, g0, cs0, ev0⟩],
        by simp [qemu_cond_wait, qemu_mutex_unlock, hc, hcs]⟩
    · exact ⟨[⟨c0, o0, m0, w0 + 1, g0, cs0, ev0⟩,
        ⟨c0 - 1, 0, m0 + 1, w0 + 1, g0, cs0, ev0⟩],
        by simp [qemu_cond_wait, qemu_mutex_unlock, hc, hcs]⟩
  · intro w t0 c hr
    have hinv : CInv c := by
      induction hr with
      | refl => exact CInv_init w t0
      | tail hsteps hstep ih => exact CInv_step hstep ih
    obtain ⟨i1, i2, i3, i4, i5⟩ := hinv
    refine ⟨?_, ?_, ?_⟩
    · intro hb
      obtain ⟨h1, h2, h3, h4, h5⟩ := i3 hb
      exact ⟨h4, h1⟩
    · intro hb he
      obtain ⟨h1, h2, h3, h4, h5⟩ := i4 hb
      obtain ⟨hs0, hd0, he0⟩ := h4 he
      intro i
      have e1 := pcount_eq_zero hs0 i
      have e2 := pcount_eq_zero hd0 i
      have e3 := pcount_eq_zero he0 i
      cases hx : c.wph i <;> simp [hx, isSem, isDec, isSetEv] at e1 e2 e3 ⊢
    · intro hb
      obtain ⟨h1, h2, h3, hs0, hd0, he0⟩ := i5 hb
      refine ⟨h1, h2, ?_⟩
      intro i
      have e1 := pcount_eq_zero hs0 i
      have e2 := pcount_eq_zero hd0 i
      have e3 := pcount_eq_zero he0 i
      cases hx : c.wph i <;> simp [hx, isSem, isDec, isSetEv] at e1 e2 e3 ⊢

/-- Witness for C3: broadcasting with no waiters registered is a no-op. -/
theorem C3_cond_broadcast_protocol_witness :
    qemu_cond_broadcast 1 ⟨1, 1, 0, 0, 0, 0, false⟩ =
      .noop ⟨1, 1, 0, 0, 0, 0, false⟩ :=
  (C3_cond_broadcast_protocol 1 ⟨1, 1, 0, 0, 0, 0, false⟩ rfl).1 rfl

end QemuRcu
